import Mathlib

/-!
# Verification of the wager-marketplace matching core

Shallow embedding, in Lean 4, of the matching/collateral/settlement core of
the `wager-marketplace` repository, together with proofs and refutations of
the frozen specification claims.

The repository contains three parallel implementations of the same design:

* a Go variant (`internal/model/models.go`, `internal/db/store.go`, the
  engine in `src/unnamed/part_003`, the order book in the second half of
  `internal/engine/book_test.go`);
* a TypeScript variant under `src/src` (`engine/matching.ts` with the order
  book in `src/unnamed/part_006`);
* a TypeScript variant under `packages/server` (`engine/book.ts`,
  `engine/engine.ts`, the collateral module concatenated into
  `packages/server/src/index.ts`, and `routes/orders.ts`).

Each definition below names the source function it translates.  All money is
modelled as integers (`Nat` where the source value is provably non-negative,
`Int` where the source is signed), matching the integer-cents discipline of
the source.
-/

namespace Wager

/-- Order side, from the `side IN ('BUY','SELL')` enums shared by all
three variants. -/
inductive Side where
  | BUY
  | SELL
deriving DecidableEq, Repr

/-- Order type, from the `order_type IN ('LIMIT','MARKET')` enums. -/
inductive OType where
  | LIMIT
  | MARKET
deriving DecidableEq, Repr

/-- Order status, from the five-valued status enums of all variants. -/
inductive OStatus where
  | OPEN
  | PARTIAL
  | FILLED
  | CANCELED
  | REJECTED
deriving DecidableEq, Repr

/-- A resting order in the in-memory book: `OrderEntry` of
`src/unnamed/part_006` (the `src/src` order book), which is field-for-field
the Go `OrderEntry` of `internal/engine` as well.  Identifiers are modelled
as `Nat`. -/
structure OrderEntry where
  orderId : Nat
  userId : Nat
  side : Side
  priceCents : Nat
  remainingQty : Nat
  lockedCents : Nat
  seq : Nat
deriving DecidableEq, Repr

/-- One planned fill returned by the matching walk:
`{ entry, fillQty, fillPrice }` from `OrderBook.findMatches` in
`src/unnamed/part_006` (Go: `Match` in `internal/engine`). -/
structure PlannedFill where
  entry : OrderEntry
  fillQty : Nat
  fillPrice : Nat
deriving DecidableEq, Repr

/-- A price level: the price key together with its FIFO queue, as stored in
the `bids`/`asks` maps of the order books.  The book keeps the level list in
walk order (asks ascending, bids descending). -/
abbrev PriceLevel := Nat × List OrderEntry

/-- The per-market in-memory book of `src/unnamed/part_006` (and of
`internal/engine`): ask levels in ascending price order, bid levels in
descending price order, exactly the traversal order of `askPrices` /
`bidPrices`. -/
structure Book where
  askLevels : List PriceLevel
  bidLevels : List PriceLevel
deriving DecidableEq, Repr

/-- Break test of the BUY walk in `findMatches`
(`priceCents !== null && askPrice > priceCents`). -/
def buyStops (limit : Option Nat) (askPrice : Nat) : Bool :=
  match limit with
  | some lp => decide (lp < askPrice)
  | none => false

/-- Break test of the SELL walk in `findMatches`
(`priceCents !== null && bidPrice < priceCents`). -/
def sellStops (limit : Option Nat) (bidPrice : Nat) : Bool :=
  match limit with
  | some lp => decide (bidPrice < lp)
  | none => false

/-- Inner FIFO loop of `OrderBook.findMatches` (`src/unnamed/part_006`
lines 121-128 and 139-146; Go `FindMatches` inner loop): walk the queue of
one price level, skipping entries of `excludeUserId`, taking
`min remaining entry.remainingQty` from each other entry.  Returns the
planned fills of this level and the remaining quantity. -/
def fmQueue (excludeUserId : Nat) (price : Nat) :
    Nat → List OrderEntry → List PlannedFill × Nat
  | rem, [] => ([], rem)
  | rem, e :: es =>
    if rem = 0 then ([], rem)
    else if e.userId = excludeUserId then fmQueue excludeUserId price rem es
    else
      let fq := min rem e.remainingQty
      let res := fmQueue excludeUserId price (rem - fq) es
      (⟨e, fq, price⟩ :: res.1, res.2)

/-- Outer level loop of `findMatches` for a BUY taker: walk ask levels in
list order, stopping when the remaining quantity is zero or the level price
exceeds the limit. -/
def fmLevelsBuy (excludeUserId : Nat) (limit : Option Nat) :
    Nat → List PriceLevel → List PlannedFill × Nat
  | rem, [] => ([], rem)
  | rem, (p, q) :: ls =>
    if rem = 0 then ([], rem)
    else if buyStops limit p then ([], rem)
    else
      let res := fmQueue excludeUserId p rem q
      let res2 := fmLevelsBuy excludeUserId limit res.2 ls
      (res.1 ++ res2.1, res2.2)

/-- Outer level loop of `findMatches` for a SELL taker: walk bid levels in
list order, stopping when the remaining quantity is zero or the level price
falls below the limit. -/
def fmLevelsSell (excludeUserId : Nat) (limit : Option Nat) :
    Nat → List PriceLevel → List PlannedFill × Nat
  | rem, [] => ([], rem)
  | rem, (p, q) :: ls =>
    if rem = 0 then ([], rem)
    else if sellStops limit p then ([], rem)
    else
      let res := fmQueue excludeUserId p rem q
      let res2 := fmLevelsSell excludeUserId limit res.2 ls
      (res.1 ++ res2.1, res2.2)

/-- `OrderBook.findMatches(side, priceCents, maxQty, excludeUserId)` of
`src/unnamed/part_006` (identically Go `OrderBook.FindMatches`): the
non-mutating matching walk over the opposite side of the book. -/
def findMatches (b : Book) (side : Side) (priceCents : Option Nat)
    (maxQty : Nat) (excludeUserId : Nat) : List PlannedFill :=
  match side with
  | Side.BUY => (fmLevelsBuy excludeUserId priceCents maxQty b.askLevels).1
  | Side.SELL => (fmLevelsSell excludeUserId priceCents maxQty b.bidLevels).1

/-- The walk as the method call it is in the source: it reads the book and
returns the plan; no mutating method is invoked, so the book component of
the result is the receiver itself (`findMatches` "Does NOT mutate the
book", `src/unnamed/part_006` lines 98-102). -/
def findMatchesRun (b : Book) (side : Side) (priceCents : Option Nat)
    (maxQty : Nat) (excludeUserId : Nat) : List PlannedFill × Book :=
  (findMatches b side priceCents maxQty excludeUserId, b)

/-! ## Collateral functions

The three variants each have their own lock/fee functions; all are embedded
because the claims compare them. -/

/-- Ceiling division by 10000 of a non-negative integer, the value of
`Math.ceil(x / 10_000)` in the `packages/server` collateral module. -/
def ceilDiv10k (x : Nat) : Nat := (x + 9999) / 10000

/-- `MAX_PRICE_CENTS` of `packages/server/src/engine/types.ts`. -/
def MAX_PRICE_CENTS : Nat := 99

/-- `SHARE_PAYOUT_CENTS` of `packages/server/src/engine/types.ts`. -/
def SHARE_PAYOUT_CENTS : Nat := 100

/-- `lockRequired(side, type, priceCents, qty, takerFeeBps)` from the
`packages/server` collateral module (concatenated into
`packages/server/src/index.ts`, lines 165-183): base lock plus
`Math.ceil(price * qty * takerFeeBps / 10_000)` where `price` is the
reference price (`MAX_PRICE_CENTS` for MARKET, else the order's price,
taken via the non-null assertion `priceCents!`, modelled by `getD 0`). -/
def lockRequired (side : Side) (otype : OType) (priceCents : Option Nat)
    (qty : Nat) (takerFeeBps : Nat) : Nat :=
  let price := if otype = OType.MARKET then MAX_PRICE_CENTS else priceCents.getD 0
  let base := if side = Side.BUY then price * qty else (SHARE_PAYOUT_CENTS - price) * qty
  let feeEstimate := ceilDiv10k (price * qty * takerFeeBps)
  base + feeEstimate

/-- `lockPerShare(side, type, priceCents)` from the same module
(lines 186-193). -/
def lockPerShare (side : Side) (otype : OType) (priceCents : Option Nat) : Nat :=
  let price := if otype = OType.MARKET then MAX_PRICE_CENTS else priceCents.getD 0
  if side = Side.BUY then price else SHARE_PAYOUT_CENTS - price

/-- `computeTakerFee(execPriceCents, fillQty, takerFeeBps)` from the same
module (lines 196-202): `Math.floor(p * q * bps / 10_000)`. -/
def computeTakerFee (execPriceCents fillQty takerFeeBps : Nat) : Nat :=
  execPriceCents * fillQty * takerFeeBps / 10000

/-- `CalcLock` from `internal/model/models.go` lines 181-198 (Go integer
division of non-negative operands is floor division). -/
def CalcLock (side : Side) (otype : OType) (priceCents : Option Nat)
    (qty : Nat) (feeBps : Nat) : Nat :=
  if otype = OType.MARKET then
    let base := 99 * qty
    base + base * feeBps / 10000
  else
    let p := priceCents.getD 0
    if side = Side.BUY then
      p * qty + p * qty * feeBps / 10000
    else
      (100 - p) * qty + 99 * qty * feeBps / 10000

/-- `CalcTakerFee` from `internal/model/models.go` lines 200-202. -/
def CalcTakerFee (priceCents qty feeBps : Nat) : Nat :=
  priceCents * qty * feeBps / 10000

/-- `calcLock` from `src/src/engine/matching.ts` lines 95-111: identical
shape to the Go `CalcLock`, with `Math.floor` fee components. -/
def calcLockTS (side : Side) (otype : OType) (priceCents : Option Nat)
    (qty : Nat) (feeBps : Nat) : Nat :=
  if otype = OType.MARKET then
    99 * qty + 99 * qty * feeBps / 10000
  else
    let p := priceCents.getD 0
    if side = Side.BUY then
      p * qty + p * qty * feeBps / 10000
    else
      (100 - p) * qty + 99 * qty * feeBps / 10000

/-- `calcTakerFee` from `src/src/engine/matching.ts` lines 113-115. -/
def calcTakerFeeTS (priceCents qty feeBps : Nat) : Nat :=
  priceCents * qty * feeBps / 10000

/-! ## The `packages/server` matching engine

`MatchingEngine.processOrder` of `packages/server/src/engine/engine.ts`
plans fills without mutating the book; `applyResult` applies them after the
database transaction commits. -/

/-- A resting order reference, `OrderRef` of
`packages/server/src/engine/types.ts` (the `timestamp : Date` field has no
arithmetic content and is omitted). -/
structure OrderRef where
  orderId : Nat
  userId : Nat
  side : Side
  priceCents : Nat
  remainingQty : Nat
  seq : Nat
deriving DecidableEq, Repr

/-- The `packages/server` book (`engine/book.ts`): price level maps plus
sorted price vectors, modelled as level lists in walk order (asks
ascending, bids descending). -/
structure PsBook where
  askLevels : List (Nat × List OrderRef)
  bidLevels : List (Nat × List OrderRef)
deriving DecidableEq, Repr

/-- `IncomingOrder` of `packages/server/src/engine/types.ts` (single
market, so `marketId` is dropped). -/
structure IncomingOrder where
  orderId : Nat
  userId : Nat
  side : Side
  otype : OType
  priceCents : Option Nat
  qty : Nat
deriving DecidableEq, Repr

/-- `Fill` of `packages/server/src/engine/types.ts`. -/
structure Fill where
  makerOrderId : Nat
  takerOrderId : Nat
  makerUserId : Nat
  takerUserId : Nat
  priceCents : Nat
  qty : Nat
  takerFeeCents : Nat
deriving DecidableEq, Repr

/-- `Map.set` of the `updatedMakers` map: replace the binding of the key,
or append it. -/
def setAssoc : List (Nat × Nat) → Nat → Nat → List (Nat × Nat)
  | [], k, v => [(k, v)]
  | (k0, v0) :: rest, k, v =>
    if k0 = k then (k, v) :: rest else (k0, v0) :: setAssoc rest k v

/-- `virtualRemaining` of `MatchingEngine.processOrder`
(`engine.ts` lines 84-87). -/
def virtualRemaining (exhausted : List Nat) (updated : List (Nat × Nat))
    (maker : OrderRef) : Nat :=
  if maker.orderId ∈ exhausted then 0
  else match updated.lookup maker.orderId with
    | some r => r
    | none => maker.remainingQty

/-- Result of the engine's matching walk: the planned fills in order, the
remaining quantity, and the exhausted/updated maker bookkeeping. -/
structure EngRes where
  fills : List Fill
  rem : Nat
  ex : List Nat
  upd : List (Nat × Nat)
deriving Repr

/-- Inner maker loop of `MatchingEngine.processOrder` (`engine.ts`
lines 99-125 and 137-163): walk the FIFO queue of one level; note there is
no self-trade check, and the execution price and fee come from the maker
entry (`maker.priceCents`). -/
def engQueue (takerOrderId takerUserId bps : Nat) :
    List OrderRef → Nat → List Nat → List (Nat × Nat) → EngRes
  | [], rem, ex, upd => ⟨[], rem, ex, upd⟩
  | maker :: rest, rem, ex, upd =>
    if rem = 0 then ⟨[], rem, ex, upd⟩
    else
      let avail := virtualRemaining ex upd maker
      if avail = 0 then engQueue takerOrderId takerUserId bps rest rem ex upd
      else
        let fq := min rem avail
        let fee := computeTakerFee maker.priceCents fq bps
        let newAvail := avail - fq
        let ex2 := if newAvail = 0 then ex ++ [maker.orderId] else ex
        let upd2 := if newAvail = 0 then upd else setAssoc upd maker.orderId newAvail
        let res := engQueue takerOrderId takerUserId bps rest (rem - fq) ex2 upd2
        ⟨⟨maker.orderId, takerOrderId, maker.userId, takerUserId,
            maker.priceCents, fq, fee⟩ :: res.fills, res.rem, res.ex, res.upd⟩

/-- Level loop of `MatchingEngine.processOrder` for a BUY taker
(`engine.ts` lines 89-126): walk ask levels, breaking when a LIMIT order's
price is crossed. -/
def engLevelsBuy (ord : IncomingOrder) (bps : Nat) :
    List (Nat × List OrderRef) → Nat → List Nat → List (Nat × Nat) → EngRes
  | [], rem, ex, upd => ⟨[], rem, ex, upd⟩
  | (p, q) :: ls, rem, ex, upd =>
    if rem = 0 then ⟨[], rem, ex, upd⟩
    else if ord.otype = OType.LIMIT ∧ buyStops ord.priceCents p = true then
      ⟨[], rem, ex, upd⟩
    else
      let res := engQueue ord.orderId ord.userId bps q rem ex upd
      let res2 := engLevelsBuy ord bps ls res.rem res.ex res.upd
      ⟨res.fills ++ res2.fills, res2.rem, res2.ex, res2.upd⟩

/-- Level loop of `MatchingEngine.processOrder` for a SELL taker
(`engine.ts` lines 127-165). -/
def engLevelsSell (ord : IncomingOrder) (bps : Nat) :
    List (Nat × List OrderRef) → Nat → List Nat → List (Nat × Nat) → EngRes
  | [], rem, ex, upd => ⟨[], rem, ex, upd⟩
  | (p, q) :: ls, rem, ex, upd =>
    if rem = 0 then ⟨[], rem, ex, upd⟩
    else if ord.otype = OType.LIMIT ∧ sellStops ord.priceCents p = true then
      ⟨[], rem, ex, upd⟩
    else
      let res := engQueue ord.orderId ord.userId bps q rem ex upd
      let res2 := engLevelsSell ord bps ls res.rem res.ex res.upd
      ⟨res.fills ++ res2.fills, res2.rem, res2.ex, res2.upd⟩

/-- `MatchResult` of `packages/server/src/engine/types.ts`. -/
structure MatchResultE where
  fills : List Fill
  restingOrder : Option OrderRef
  status : OStatus
  remainingQty : Nat
  exhaustedMakerOrderIds : List Nat
  updatedMakers : List (Nat × Nat)
deriving Repr

/-- `MatchingEngine.processOrder` of `packages/server/src/engine/engine.ts`
(lines 75-198): runs the matching walk over the top 999 levels of the
opposite side, then decides the status — `remaining == 0` gives FILLED; a
MARKET order gives CANCELED when it has fills and REJECTED when it has
none; a LIMIT order rests its remainder (PARTIAL with fills, OPEN without),
taking a fresh `seq`.  Returns the result and the new seq counter. -/
def engineProcessOrder (b : PsBook) (seqCtr : Nat) (ord : IncomingOrder)
    (bps : Nat) : MatchResultE × Nat :=
  let w :=
    match ord.side with
    | Side.BUY => engLevelsBuy ord bps (b.askLevels.take 999) ord.qty [] []
    | Side.SELL => engLevelsSell ord bps (b.bidLevels.take 999) ord.qty [] []
  if w.rem = 0 then
    (⟨w.fills, none, OStatus.FILLED, w.rem, w.ex, w.upd⟩, seqCtr)
  else if ord.otype = OType.MARKET then
    (⟨w.fills, none,
      if w.fills.length > 0 then OStatus.CANCELED else OStatus.REJECTED,
      w.rem, w.ex, w.upd⟩, seqCtr)
  else
    let seq := seqCtr + 1
    let resting : OrderRef :=
      ⟨ord.orderId, ord.userId, ord.side, ord.priceCents.getD 0, w.rem, seq⟩
    (⟨w.fills, some resting,
      if w.fills.length > 0 then OStatus.PARTIAL else OStatus.OPEN,
      w.rem, w.ex, w.upd⟩, seq)

/-! ## `applyResult` and book mutations of the `packages/server` engine -/

/-- Remove one order from a level list, dropping the level when its queue
becomes empty (`OrderBook.removeOrder` of `packages/server/src/engine/book.ts`). -/
def psRemoveFromLevels (oid : Nat) :
    List (Nat × List OrderRef) → List (Nat × List OrderRef)
  | [] => []
  | (p, q) :: ls =>
    if q.any (fun o => o.orderId = oid) then
      let q2 := q.filter (fun o => o.orderId ≠ oid)
      if q2.isEmpty then ls else (p, q2) :: ls
    else (p, q) :: psRemoveFromLevels oid ls

/-- `OrderBook.removeOrder` applied to the whole book (an order id lives on
at most one side). -/
def psBookRemove (b : PsBook) (oid : Nat) : PsBook :=
  ⟨psRemoveFromLevels oid b.askLevels, psRemoveFromLevels oid b.bidLevels⟩

/-- `OrderBook.updateRemaining` of `packages/server/src/engine/book.ts`. -/
def psBookUpdateRemaining (b : PsBook) (oid newRem : Nat) : PsBook :=
  let upd := fun (lv : Nat × List OrderRef) =>
    (lv.1, lv.2.map (fun o =>
      if o.orderId = oid then { o with remainingQty := newRem } else o))
  ⟨b.askLevels.map upd, b.bidLevels.map upd⟩

/-- Insert a resting order into a level list kept in walk order
(`OrderBook.addOrder` via `addToSide`/`insertSorted` of
`packages/server/src/engine/book.ts`); `asc` selects ask ordering. -/
def psAddToLevels (ord : OrderRef) (asc : Bool) :
    List (Nat × List OrderRef) → List (Nat × List OrderRef)
  | [] => [(ord.priceCents, [ord])]
  | (p, q) :: ls =>
    if p = ord.priceCents then (p, q ++ [ord]) :: ls
    else if (if asc then ord.priceCents < p else p < ord.priceCents) then
      (ord.priceCents, [ord]) :: (p, q) :: ls
    else (p, q) :: psAddToLevels ord asc ls

/-- `OrderBook.addOrder` of `packages/server/src/engine/book.ts`. -/
def psBookAdd (b : PsBook) (ord : OrderRef) : PsBook :=
  match ord.side with
  | Side.BUY => { b with bidLevels := psAddToLevels ord false b.bidLevels }
  | Side.SELL => { b with askLevels := psAddToLevels ord true b.askLevels }

/-- `MatchingEngine.applyResult` of `packages/server/src/engine/engine.ts`
(lines 204-218): remove exhausted makers, update partially filled makers,
add the resting order.  Called only after the database transaction
commits. -/
def applyResult (b : PsBook) (r : MatchResultE) : PsBook :=
  let b1 := r.exhaustedMakerOrderIds.foldl psBookRemove b
  let b2 := r.updatedMakers.foldl (fun bb kv => psBookUpdateRemaining bb kv.1 kv.2) b1
  match r.restingOrder with
  | some o => psBookAdd b2 o
  | none => b2

/-! ## `src/src/engine/matching.ts`: status decision and the order
transaction -/

/-- Status decision of `processOrderInner` (`matching.ts` lines 190-203);
the MARKET branch assigns FILLED twice in the source, with net effect
FILLED. -/
def decideStatusTS (otype : OType) (qty fillQty : Nat) : OStatus :=
  if fillQty = qty then OStatus.FILLED
  else if 0 < fillQty ∧ otype = OType.LIMIT then OStatus.PARTIAL
  else if 0 < fillQty ∧ otype = OType.MARKET then OStatus.FILLED
  else if otype = OType.MARKET ∧ fillQty = 0 then OStatus.CANCELED
  else OStatus.OPEN

/-- The `remainingQty` written on the taker's order row
(`matching.ts` line 246): zero for FILLED/CANCELED, else `qty − fillQty`. -/
def storedRemainingTS (status : OStatus) (qty fillQty : Nat) : Nat :=
  if status = OStatus.FILLED ∨ status = OStatus.CANCELED then 0 else qty - fillQty

/-- Whether the taker's order rests on the in-memory book after commit
(`matching.ts` line 482). -/
def restsTS (status : OStatus) : Bool :=
  status = OStatus.OPEN ∨ status = OStatus.PARTIAL

/-- Status decision of the Go `MarketEngine.processOrder`
(`src/unnamed/part_003` lines 242-256), entered only when the MARKET
no-liquidity early return (line 216) did not fire. -/
def goDecideStatus (otype : OType) (qty fillQty : Nat) : OStatus :=
  if fillQty = qty then OStatus.FILLED
  else if 0 < fillQty ∧ otype = OType.LIMIT then OStatus.PARTIAL
  else if 0 < fillQty ∧ otype = OType.MARKET then OStatus.FILLED
  else if otype = OType.LIMIT then OStatus.OPEN
  else OStatus.CANCELED

/-- `remainingQty` after the Go status switch: `qty − fillQty`, overwritten
to `0` in the MARKET partial-fill branch (`part_003` lines 240, 251). -/
def goRemainingQty (otype : OType) (qty fillQty : Nat) : Nat :=
  if goDecideStatus otype qty fillQty = OStatus.FILLED ∨
      goDecideStatus otype qty fillQty = OStatus.CANCELED then
    if 0 < fillQty ∧ otype = OType.MARKET ∧ ¬ fillQty = qty then 0 else qty - fillQty
  else qty - fillQty

/-- The Go early return for a MARKET order with no matches
(`part_003` lines 216-218): status CANCELED, reason `no liquidity`, and no
order row is written. -/
def goProcessStatus (otype : OType) (qty fillQty : Nat) (hasMatches : Bool) :
    OStatus :=
  if otype = OType.MARKET ∧ hasMatches = false then OStatus.CANCELED
  else goDecideStatus otype qty fillQty

/-- Apply one fill to the `src/src` in-memory book
(`OrderBook.applyFill` of `src/unnamed/part_006` lines 158-172): decrement
the entry's remaining quantity, remove it (and its level if emptied) when
it reaches zero.  The source throws when `fillQty > remainingQty`; the
engine only calls it with planned quantities, which are bounded. -/
def applyFillLevels (oid fq : Nat) : List PriceLevel → List PriceLevel
  | [] => []
  | (p, q) :: ls =>
    if q.any (fun e => e.orderId = oid) then
      let q2 := q.map (fun e =>
        if e.orderId = oid then { e with remainingQty := e.remainingQty - fq } else e)
      let q3 := q2.filter (fun e => ¬ (e.orderId = oid ∧ e.remainingQty = 0))
      if q3.isEmpty then ls else (p, q3) :: ls
    else (p, q) :: applyFillLevels oid fq ls

/-- `OrderBook.applyFill` on the whole `src/src` book. -/
def bookApplyFill (b : Book) (oid fq : Nat) : Book :=
  ⟨applyFillLevels oid fq b.askLevels, applyFillLevels oid fq b.bidLevels⟩

/-- `OrderBook.add` of `src/unnamed/part_006` (via `addToSide` /
`insertPrice`): append to the price's FIFO queue, inserting a new level at
its sorted position. -/
def bookAddToLevels (e : OrderEntry) (asc : Bool) :
    List PriceLevel → List PriceLevel
  | [] => [(e.priceCents, [e])]
  | (p, q) :: ls =>
    if p = e.priceCents then (p, q ++ [e]) :: ls
    else if (if asc then e.priceCents < p else p < e.priceCents) then
      (e.priceCents, [e]) :: (p, q) :: ls
    else (p, q) :: bookAddToLevels e asc ls

/-- `OrderBook.add` on the whole `src/src` book. -/
def bookAdd (b : Book) (e : OrderEntry) : Book :=
  match e.side with
  | Side.BUY => { b with bidLevels := bookAddToLevels e false b.bidLevels }
  | Side.SELL => { b with askLevels := bookAddToLevels e true b.askLevels }

/-- Durable rows touched by one `processOrderInner` transaction of
`src/src/engine/matching.ts`: the taker's order row, the trade rows, the
event rows, and the taker's wallet lock (representative of the wallet
mutations; all are rolled back together). -/
structure TsDb where
  orderRows : List (Nat × OStatus)
  tradeRows : List (Nat × Nat × Nat)
  eventRows : List String
  takerLockedCents : Int
deriving DecidableEq, Repr

/-- The database writes staged by the `prisma.$transaction` callback of
`processOrderInner` (`matching.ts` lines 229-478): wallet lock increment,
order row, `OrderAccepted` event, one trade row and `TradeExecuted` event
per planned fill. -/
def tsTxWrites (db : TsDb) (ord : IncomingOrder) (plan : List PlannedFill)
    (status : OStatus) (lockAmt : Int) : TsDb :=
  { orderRows := db.orderRows ++ [(ord.orderId, status)]
    tradeRows := db.tradeRows ++
      plan.map (fun f => (f.entry.orderId, f.fillPrice, f.fillQty))
    eventRows := db.eventRows ++ ["OrderAccepted"] ++
      plan.map (fun _ => "TradeExecuted")
    takerLockedCents := db.takerLockedCents + lockAmt }

/-- One `PlaceOrder` attempt of `src/src/engine/matching.ts`
(`processOrderInner`, lines 132-497) at the book/database boundary.

The matching plan is computed first (line 182); then, *inside* the
`prisma.$transaction` callback, each planned fill applies
`book.applyFill` to the in-memory book (line 288) while the corresponding
rows are staged.  `commitOk = false` models the transaction aborting at
commit (or any later staged statement failing): Prisma rolls back every
staged row, but the `applyFill` calls already executed against the
in-memory book are not undone.  On commit, a resting OPEN/PARTIAL order is
added to the book post-transaction (lines 482-493). -/
def processOrderTxn (db : TsDb) (b : Book) (ord : IncomingOrder) (seq : Nat)
    (feeBps : Nat) (commitOk : Bool) : TsDb × Book :=
  let plan := findMatches b ord.side ord.priceCents ord.qty ord.userId
  let fillQty := (plan.map (fun f => f.fillQty)).sum
  let status := decideStatusTS ord.otype ord.qty fillQty
  let lockAmt : Int := Int.ofNat (calcLockTS ord.side ord.otype ord.priceCents ord.qty feeBps)
  let b2 := plan.foldl (fun bb f => bookApplyFill bb f.entry.orderId f.fillQty) b
  let db2 := tsTxWrites db ord plan status lockAmt
  if commitOk then
    if restsTS status then
      let resting : OrderEntry :=
        ⟨ord.orderId, ord.userId, ord.side, ord.priceCents.getD 0,
          ord.qty - fillQty,
          if ord.otype = OType.MARKET then 0
          else calcLockTS ord.side OType.LIMIT ord.priceCents (ord.qty - fillQty) feeBps,
          seq⟩
      (db2, bookAdd b2 resting)
    else (db2, b2)
  else (db, b2)

/-! ## Settlement (`packages/server/src/services/settlement.ts`) -/

/-- Market resolution outcome (`resolves_to IN ('YES','NO')`). -/
inductive Outcome where
  | YES
  | NO
deriving DecidableEq, Repr

/-- A wallet row: `balance_cents`, `locked_cents` (BIGINT columns of the
`wallets` table). -/
structure Wallet where
  balanceCents : Int
  lockedCents : Int
deriving DecidableEq, Repr

/-- A position row of the `packages/server` Prisma schema: signed
`yesShares`, average cost, realized PnL, and short collateral
`lockedCents`. -/
structure Position where
  userId : Nat
  yesShares : Int
  avgCostCents : Int
  realizedPnlCents : Int
  lockedCents : Int
deriving DecidableEq, Repr

/-- The per-position step of `settleMarket`
(`packages/server/src/services/settlement.ts` lines 61-116): release the
position's collateral from the owner's wallet lock, credit/debit the payout
(`yesShares × SHARE_PAYOUT_CENTS` on YES, nothing on NO), accrue realized
PnL, and zero the position's lock. -/
def settlePosition (resolvesTo : Outcome) (w : Wallet) (pos : Position) :
    Wallet × Position :=
  let w1 := if 0 < pos.lockedCents then
      { w with lockedCents := w.lockedCents - pos.lockedCents } else w
  let payout : Int :=
    if resolvesTo = Outcome.YES ∧ 0 < pos.yesShares then
      pos.yesShares * (SHARE_PAYOUT_CENTS : Int)
    else if resolvesTo = Outcome.NO ∧ pos.yesShares < 0 then 0
    else if resolvesTo = Outcome.YES ∧ pos.yesShares < 0 then
      pos.yesShares * (SHARE_PAYOUT_CENTS : Int)
    else 0
  let w2 := if payout ≠ 0 then
      { w1 with balanceCents := w1.balanceCents + payout } else w1
  let totalCost := pos.avgCostCents * |pos.yesShares|
  let realizedPnl := payout - (if 0 < pos.yesShares then totalCost else -totalCost)
  (w2, { pos with realizedPnlCents := pos.realizedPnlCents + realizedPnl,
                  lockedCents := 0 })

/-! ## Solvency: the `wallets` table constraints
(`src/migrations/001_init.up.sql` lines 13-18)

PostgreSQL evaluates the `CHECK (balance_cents >= 0)`,
`CHECK (locked_cents >= 0)` and `CONSTRAINT wallet_solvency CHECK
(balance_cents >= locked_cents)` constraints on every mutated row before a
transaction may commit; a violating transaction aborts and leaves the table
unchanged.  A durable operation is therefore a guarded state transition on
the wallet table. -/

/-- The row constraints of the `wallets` table, as a Boolean check. -/
def walletOkB (w : Wallet) : Bool :=
  decide (0 ≤ w.balanceCents) && decide (0 ≤ w.lockedCents) &&
    decide (w.lockedCents ≤ w.balanceCents)

/-- The wallet table: user id to wallet row. -/
abbrev WalletTable := List (Nat × Wallet)

/-- All rows satisfy the table's CHECK constraints. -/
def tableOkB (s : WalletTable) : Bool := s.all (fun row => walletOkB row.2)

/-- A durable commit: the transaction `t` (the net row effect of any
operation — place order, fill, cancel, deposit, settlement) commits only
if every wallet row satisfies the CHECK constraints; otherwise PostgreSQL
aborts it and the table is unchanged. -/
def commitTx (s : WalletTable) (t : WalletTable → WalletTable) : WalletTable :=
  if tableOkB (t s) then t s else s

/-- Wallet-table states reachable through durably committed operations,
starting from the empty table (new wallets are inserted with the column
defaults `0`/`0`, which the constraints accept). -/
inductive SolventReach : WalletTable → Prop where
  | init : SolventReach []
  | step (s : WalletTable) (t : WalletTable → WalletTable) :
      SolventReach s → SolventReach (commitTx s t)

/-! ## Per-user lock recomputation (Go variant)

`RecalcLocked` of `internal/db/store.go` lines 146-161 rewrites
`wallets.locked_cents` to the sum of open-order locks plus short-position
locks; `MarketEngine.processOrder` (`src/unnamed/part_003` lines 408-413)
runs it for the taker and every distinct maker immediately before
committing. -/

/-- An order row as read by `RecalcLocked`. -/
structure GoOrder where
  userId : Nat
  status : OStatus
  lockedCents : Int
deriving DecidableEq, Repr

/-- A position row as read by `RecalcLocked`. -/
structure GoPosition where
  userId : Nat
  yesShares : Int
deriving DecidableEq, Repr

/-- The slice of database state `RecalcLocked` touches: order rows,
position rows, and the `locked_cents` wallet column. -/
structure GoTxState where
  orders : List GoOrder
  positions : List GoPosition
  locked : Nat → Int

/-- `SELECT COALESCE(SUM(locked_cents),0) FROM orders WHERE user_id=$1 AND
status IN ('OPEN','PARTIAL')`. -/
def orderLockSum (s : GoTxState) (u : Nat) : Int :=
  ((s.orders.filter (fun o =>
      o.userId = u ∧ (o.status = OStatus.OPEN ∨ o.status = OStatus.PARTIAL))).map
    (fun o => o.lockedCents)).sum

/-- `SELECT COALESCE(SUM(GREATEST(-yes_shares,0))*100,0) FROM positions
WHERE user_id=$1`. -/
def posLockSum (s : GoTxState) (u : Nat) : Int :=
  ((s.positions.filter (fun p => p.userId = u)).map
    (fun p => max (-p.yesShares) 0)).sum * 100

/-- `RecalcLocked(tx, userID)` of `internal/db/store.go`:
`UPDATE wallets SET locked_cents = orderLock + posLock WHERE user_id=$1`. -/
def recalcLocked (u : Nat) (s : GoTxState) : GoTxState :=
  { s with locked := fun v =>
      if v = u then orderLockSum s u + posLockSum s u else s.locked v }

/-- The final phase of the Go `processOrder` transaction
(`part_003` lines 408-413): `RecalcLocked` for every affected user, in
sequence, with no other writes before `Commit`. -/
def recalcAffected (s : GoTxState) (affected : List Nat) : GoTxState :=
  affected.foldl (fun st u => recalcLocked u st) s

/-- Durable rows staged by the `packages/server` place-order transaction
(`routes/orders.ts` lines 35-114): the order row, per-fill trade rows,
events, and the taker's wallet lock increment. -/
def psTxWrites (db : TsDb) (ord : IncomingOrder) (fills : List Fill)
    (status : OStatus) (lockAmt : Int) : TsDb :=
  { orderRows := db.orderRows ++ [(ord.orderId, status)]
    tradeRows := db.tradeRows ++ fills.map (fun f => (f.makerOrderId, f.priceCents, f.qty))
    eventRows := db.eventRows ++ ["OrderAccepted"] ++ fills.map (fun _ => "TradeExecuted")
    takerLockedCents := db.takerLockedCents + lockAmt }

/-- The `packages/server` place-order route at the book/database boundary
(`routes/orders.ts` lines 34-129): the transaction calls the *pure*
`engine.processOrder` and stages rows; `engine.applyResult` mutates the
in-memory book only after `prisma.$transaction` resolves (line 117).
`commitOk = false` models the transaction aborting: the staged rows are
rolled back and `applyResult` is never reached, so the book is untouched.
The in-memory seq counter, advanced inside the transaction, is not rolled
back (seq gaps are allowed). -/
def psPlaceOrderRoute (db : TsDb) (b : PsBook) (seqCtr : Nat)
    (ord : IncomingOrder) (bps : Nat) (commitOk : Bool) :
    TsDb × PsBook × Nat :=
  let r := engineProcessOrder b seqCtr ord bps
  let lockAmt : Int :=
    Int.ofNat (lockRequired ord.side ord.otype ord.priceCents ord.qty bps)
  let db2 := psTxWrites db ord r.1.fills r.1.status lockAmt
  if commitOk then (db2, applyResult b r.1, r.2) else (db, b, r.2)

/-- All resting entries of a `src/src` book, asks then bids (the contents
of the `orderIndex` map of `src/unnamed/part_006`); used to state book
invariants such as order-id uniqueness (no duplicate `orderId` may be
added). -/
def bookEntries (b : Book) : List OrderEntry :=
  (b.askLevels.map Prod.snd).flatten ++ (b.bidLevels.map Prod.snd).flatten

/-! # Theorems -/

/-! ## Claim C7: SELL MARKET worst-case lock -/

/-- Claim C7 counterexample: in the `packages/server` collateral module,
a SELL MARKET order locks `(100 − 99) = 1` cent per share, not
`MAX_PRICE = 99`: with `qty = 5` and a zero fee rate, `lockRequired` is
`(100 − 99) × 5 = 5`, not `99 × 5 = 495`, and `lockPerShare` is `1`. -/
theorem sell_market_lock_counterexample :
    lockRequired Side.SELL OType.MARKET none 5 0 = (100 - 99) * 5 ∧
    lockRequired Side.SELL OType.MARKET none 5 0 ≠ 99 * 5 ∧
    lockPerShare Side.SELL OType.MARKET none = 1 := by
  decide

/-- Claim C7 amended: the Go `CalcLock` and the `src/src` `calcLock` give a
SELL MARKET order the symmetric worst-case base lock of `99` cents per
share (`99 × qty` plus the floor fee estimate), but the `packages/server`
`lockRequired`/`lockPerShare` give it `(100 − 99) = 1` cent per share plus
the ceiling fee estimate on `99 × qty`. -/
theorem sell_market_lock_amended :
    (∀ qty feeBps : Nat, CalcLock Side.SELL OType.MARKET none qty feeBps
        = 99 * qty + 99 * qty * feeBps / 10000) ∧
    (∀ qty feeBps : Nat, calcLockTS Side.SELL OType.MARKET none qty feeBps
        = 99 * qty + 99 * qty * feeBps / 10000) ∧
    lockPerShare Side.SELL OType.MARKET none = 100 - 99 ∧
    (∀ qty feeBps : Nat, lockRequired Side.SELL OType.MARKET none qty feeBps
        = (100 - 99) * qty + ceilDiv10k (99 * qty * feeBps)) := by
  refine ⟨fun qty bps => ?_, fun qty bps => ?_, rfl, fun qty bps => ?_⟩ <;>
    simp [CalcLock, calcLockTS, lockRequired, MAX_PRICE_CENTS, SHARE_PAYOUT_CENTS]

/-! ## Claim C9: PlaceOrder failure atomicity -/

/-- Claim C9 counterexample: in `src/src/engine/matching.ts` the in-memory
book is mutated *inside* the transaction (`book.applyFill`, line 288).
With one resting ask `(50, qty 5)` and an aborting BUY LIMIT 50 x 5 that
matches it, the database is rolled back but the book has lost the ask, so
"the in-memory book is unchanged" is false. -/
theorem atomicity_counterexample :
    (processOrderTxn ⟨[], [], [], 0⟩
        ⟨[(50, [⟨601, 2, Side.SELL, 50, 5, 0, 1⟩])], []⟩
        ⟨701, 1, Side.BUY, OType.LIMIT, some 50, 5⟩ 5 100 false).1
      = (⟨[], [], [], 0⟩ : TsDb) ∧
    (processOrderTxn ⟨[], [], [], 0⟩
        ⟨[(50, [⟨601, 2, Side.SELL, 50, 5, 0, 1⟩])], []⟩
        ⟨701, 1, Side.BUY, OType.LIMIT, some 50, 5⟩ 5 100 false).2
      ≠ (⟨[(50, [⟨601, 2, Side.SELL, 50, 5, 0, 1⟩])], []⟩ : Book) := by
  decide

/-- Claim C9 amended: if the place-order transaction aborts, every durable
effect (order row, trades, events, wallet mutation) is rolled back in both
TypeScript variants; in the `packages/server` route the in-memory book is
also unchanged, because the engine walk is pure and `applyResult` runs
only after commit — but in `src/src/engine/matching.ts` (and likewise the
Go engine) maker fills are applied to the in-memory book inside the
transaction, so an abort can leave the book mutated (see the
counterexample). -/
theorem failure_atomicity_amended :
    (∀ (db : TsDb) (b : Book) (ord : IncomingOrder) (seq bps : Nat),
      (processOrderTxn db b ord seq bps false).1 = db) ∧
    (∀ (db : TsDb) (b : PsBook) (ord : IncomingOrder) (seqCtr bps : Nat),
      (psPlaceOrderRoute db b seqCtr ord bps false).1 = db ∧
      (psPlaceOrderRoute db b seqCtr ord bps false).2.1 = b) := by
  constructor
  · intro db b ord seq bps
    simp [processOrderTxn]
  · intro db b ord seqCtr bps
    exact ⟨by simp [psPlaceOrderRoute], by simp [psPlaceOrderRoute]⟩

/-! ## Claim C3: MARKET order terminal status -/

/-- Claim C3 counterexample: the `packages/server`
`MatchingEngine.processOrder` returns REJECTED (not CANCELED) for a MARKET
order finding zero liquidity, and CANCELED (not FILLED) with a non-zero
`remainingQty` for a partially matched MARKET order — refuting the claim
for this engine (its own tests expect exactly this behaviour). -/
theorem market_status_counterexample :
    (engineProcessOrder ⟨[], []⟩ 0
        ⟨301, 7, Side.BUY, OType.MARKET, none, 5⟩ 100).1.status
      = OStatus.REJECTED ∧
    (engineProcessOrder ⟨[(50, [⟨201, 9, Side.SELL, 50, 5, 1⟩])], []⟩ 0
        ⟨301, 8, Side.BUY, OType.MARKET, none, 9⟩ 100).1.status
      = OStatus.CANCELED ∧
    (engineProcessOrder ⟨[(50, [⟨201, 9, Side.SELL, 50, 5, 1⟩])], []⟩ 0
        ⟨301, 8, Side.BUY, OType.MARKET, none, 9⟩ 100).1.remainingQty
      = 4 := by
  decide

/-- Claim C3 amended: in `src/src/engine/matching.ts` and the Go
`MarketEngine.processOrder`, a MARKET order behaves as the claim states —
zero matchable quantity gives CANCELED (not REJECTED) with zero fills and
nothing rests; a partial (or full) match gives FILLED with stored
`remainingQty = 0` and the unfilled portion discarded.  The
`packages/server` `MatchingEngine` instead returns REJECTED on zero fills
and CANCELED on partial fills (see the counterexample). -/
theorem market_order_terminal_status_amended :
    ∀ qty fillQty : Nat, 0 < qty → fillQty ≤ qty →
    (decideStatusTS OType.MARKET qty 0 = OStatus.CANCELED ∧
      storedRemainingTS (decideStatusTS OType.MARKET qty 0) qty 0 = 0 ∧
      restsTS (decideStatusTS OType.MARKET qty 0) = false) ∧
    (0 < fillQty →
      decideStatusTS OType.MARKET qty fillQty = OStatus.FILLED ∧
      storedRemainingTS (decideStatusTS OType.MARKET qty fillQty) qty fillQty = 0 ∧
      restsTS (decideStatusTS OType.MARKET qty fillQty) = false) ∧
    goProcessStatus OType.MARKET qty fillQty false = OStatus.CANCELED ∧
    (0 < fillQty →
      goProcessStatus OType.MARKET qty fillQty true = OStatus.FILLED ∧
      goRemainingQty OType.MARKET qty fillQty = 0) := by
  intro qty fillQty hq hle
  have h0 : decideStatusTS OType.MARKET qty 0 = OStatus.CANCELED := by
    unfold decideStatusTS
    split_ifs <;> simp_all
  refine ⟨⟨h0, ?_, ?_⟩, fun hf => ?_, ?_, fun hf => ?_⟩
  · rw [h0]; rfl
  · rw [h0]; rfl
  · have hF : decideStatusTS OType.MARKET qty fillQty = OStatus.FILLED := by
      unfold decideStatusTS
      split_ifs <;> simp_all
    exact ⟨hF, by rw [hF]; rfl, by rw [hF]; rfl⟩
  · unfold goProcessStatus
    simp
  · have hF : goDecideStatus OType.MARKET qty fillQty = OStatus.FILLED := by
      unfold goDecideStatus
      split_ifs <;> simp_all
    refine ⟨?_, ?_⟩
    · unfold goProcessStatus
      simp [hF]
    · unfold goRemainingQty
      rw [hF]
      split_ifs <;> simp_all

/-- Claim C3 amended, witness at `qty = 5`, `fillQty = 3`. -/
theorem market_order_terminal_status_amended_witness :
    0 < 5 ∧ 3 ≤ 5 ∧
    ((decideStatusTS OType.MARKET 5 0 = OStatus.CANCELED ∧
      storedRemainingTS (decideStatusTS OType.MARKET 5 0) 5 0 = 0 ∧
      restsTS (decideStatusTS OType.MARKET 5 0) = false) ∧
    (0 < 3 →
      decideStatusTS OType.MARKET 5 3 = OStatus.FILLED ∧
      storedRemainingTS (decideStatusTS OType.MARKET 5 3) 5 3 = 0 ∧
      restsTS (decideStatusTS OType.MARKET 5 3) = false) ∧
    goProcessStatus OType.MARKET 5 3 false = OStatus.CANCELED ∧
    (0 < 3 →
      goProcessStatus OType.MARKET 5 3 true = OStatus.FILLED ∧
      goRemainingQty OType.MARKET 5 3 = 0)) :=
  ⟨by decide, by decide,
    market_order_terminal_status_amended 5 3 (by decide) (by decide)⟩

/-! ## Claim C8: settlement payout -/

/-- Claim C8: for every position settled by `settleMarket`, the owner's
wallet balance changes by `yesShares × 100` when the market resolves YES
(a credit for longs, a debit for shorts) and is unchanged when it resolves
NO; in all cases the position's `lockedCents` is released from the wallet
lock and the position ends with `lockedCents = 0`. -/
theorem settlement_payout :
    ∀ (rt : Outcome) (w : Wallet) (pos : Position), 0 ≤ pos.lockedCents →
    (settlePosition rt w pos).1.balanceCents
        = w.balanceCents + (if rt = Outcome.YES then pos.yesShares * 100 else 0) ∧
    (settlePosition rt w pos).1.lockedCents = w.lockedCents - pos.lockedCents ∧
    (settlePosition rt w pos).2.lockedCents = 0 := by
  intro rt w pos h
  unfold settlePosition
  cases rt <;> simp [SHARE_PAYOUT_CENTS] <;> split_ifs <;> simp_all <;> omega

/-- Claim C8, witness: resolve YES against a short of 10 shares holding
300 cents of position collateral. -/
theorem settlement_payout_witness :
    (0 : Int) ≤ (Position.mk 5 (-10) 70 0 300).lockedCents ∧
    ((settlePosition Outcome.YES ⟨1000, 300⟩ ⟨5, -10, 70, 0, 300⟩).1.balanceCents
        = (1000 : Int) +
          (if Outcome.YES = Outcome.YES then (-10 : Int) * 100 else 0) ∧
      (settlePosition Outcome.YES ⟨1000, 300⟩ ⟨5, -10, 70, 0, 300⟩).1.lockedCents
        = (300 : Int) - 300 ∧
      (settlePosition Outcome.YES ⟨1000, 300⟩ ⟨5, -10, 70, 0, 300⟩).2.lockedCents
        = 0) :=
  ⟨by decide, settlement_payout Outcome.YES ⟨1000, 300⟩ ⟨5, -10, 70, 0, 300⟩ (by decide)⟩

/-! ## Claim C1: solvency invariant -/

/-- Claim C1: after every durably committed operation, every wallet row
satisfies `0 ≤ lockedCents`, `0 ≤ balanceCents` and
`lockedCents ≤ balanceCents` — the `wallets` CHECK constraints of
`src/migrations/001_init.up.sql` gate every commit, so every reachable
committed table state is solvent. -/
theorem solvency_invariant_holds :
    ∀ s : WalletTable, SolventReach s →
    ∀ row ∈ s, 0 ≤ row.2.lockedCents ∧ 0 ≤ row.2.balanceCents ∧
      row.2.lockedCents ≤ row.2.balanceCents := by
  intro s h
  induction h with
  | init =>
    intro row hr
    simp at hr
  | step s t hs ih =>
    intro row hr
    unfold commitTx at hr
    by_cases hc : tableOkB (t s) = true
    · rw [if_pos hc] at hr
      unfold tableOkB at hc
      have hok := List.all_eq_true.mp hc row hr
      unfold walletOkB at hok
      simp only [Bool.and_eq_true, decide_eq_true_eq] at hok
      exact ⟨hok.1.2, hok.1.1, hok.2⟩
    · rw [if_neg hc] at hr
      exact ih row hr

/-- Claim C1, witness: one committed deposit creating a solvent wallet. -/
theorem solvency_invariant_holds_witness :
    0 ≤ ((1, (⟨100, 30⟩ : Wallet))).2.lockedCents ∧
    0 ≤ ((1, (⟨100, 30⟩ : Wallet))).2.balanceCents ∧
    ((1, (⟨100, 30⟩ : Wallet))).2.lockedCents
      ≤ ((1, (⟨100, 30⟩ : Wallet))).2.balanceCents :=
  solvency_invariant_holds _
    (SolventReach.step [] (fun _ => [(1, ⟨100, 30⟩)]) SolventReach.init)
    (1, ⟨100, 30⟩) (by decide)

/-! ## Claim C2: per-user lock consistency -/

theorem orderLockSum_recalcLocked (v : Nat) (s : GoTxState) (u : Nat) :
    orderLockSum (recalcLocked v s) u = orderLockSum s u := rfl

theorem posLockSum_recalcLocked (v : Nat) (s : GoTxState) (u : Nat) :
    posLockSum (recalcLocked v s) u = posLockSum s u := rfl

theorem recalcAffected_locked_of_notMem :
    ∀ (us : List Nat) (s : GoTxState) (u : Nat), u ∉ us →
    (recalcAffected s us).locked u = s.locked u := by
  intro us
  induction us with
  | nil => intro s u _; rfl
  | cons v rest ih =>
    intro s u h
    have h1 : u ≠ v := fun e => h (e ▸ List.mem_cons_self v rest)
    have h2 : u ∉ rest := fun m => h (List.mem_cons_of_mem _ m)
    show (recalcAffected (recalcLocked v s) rest).locked u = s.locked u
    rw [ih _ _ h2]
    simp [recalcLocked, h1]

/-- Claim C2: at the end of the Go order transaction, for every affected
user (the taker and every distinct maker), the wallet's `lockedCents`
equals the sum of that user's OPEN/PARTIAL order locks plus the sum of
that user's position locks — `RecalcLocked` rewrites exactly this value
for each affected user, and it reads and writes no order or position row,
so every affected user's equation holds when the loop finishes. -/
theorem recalc_locked_consistency :
    ∀ (s : GoTxState) (affected : List Nat) (u : Nat), u ∈ affected →
    (recalcAffected s affected).locked u = orderLockSum s u + posLockSum s u := by
  intro s affected
  induction affected generalizing s with
  | nil =>
    intro u h
    cases h
  | cons v rest ih =>
    intro u h
    by_cases hr : u ∈ rest
    · exact ih (recalcLocked v s) u hr
    · have hu : u = v := by
        rcases List.mem_cons.mp h with h1 | h2
        · exact h1
        · exact absurd h2 hr
      subst hu
      show (recalcAffected (recalcLocked u s) rest).locked u = _
      rw [recalcAffected_locked_of_notMem rest _ u hr]
      simp [recalcLocked]

/-- Claim C2, witness: one affected user with an OPEN order locking 500
and a short position of 3 shares. -/
theorem recalc_locked_consistency_witness :
    (1 : Nat) ∈ [1] ∧
    (recalcAffected ⟨[⟨1, OStatus.OPEN, 500⟩], [⟨1, -3⟩], fun _ => 0⟩ [1]).locked 1
      = orderLockSum ⟨[⟨1, OStatus.OPEN, 500⟩], [⟨1, -3⟩], fun _ => 0⟩ 1
        + posLockSum ⟨[⟨1, OStatus.OPEN, 500⟩], [⟨1, -3⟩], fun _ => 0⟩ 1 :=
  ⟨by decide, recalc_locked_consistency ⟨[⟨1, OStatus.OPEN, 500⟩], [⟨1, -3⟩], fun _ => 0⟩ [1] 1 (by decide)⟩

/-! ## Lemmas about the `findMatches` walk -/

theorem fmQueue_entries_sublist (ex p : Nat) :
    ∀ (rem : Nat) (q : List OrderEntry),
    ((fmQueue ex p rem q).1.map (fun f => f.entry)).Sublist q := by
  intro rem q
  induction q generalizing rem with
  | nil => simp [fmQueue]
  | cons e es ih =>
    unfold fmQueue
    by_cases h0 : rem = 0
    · simp [h0]
    · rw [if_neg h0]
      by_cases hskip : e.userId = ex
      · rw [if_pos hskip]
        exact (ih rem).cons e
      · rw [if_neg hskip]
        exact (ih _).cons₂ e

theorem fmQueue_props (ex p : Nat) :
    ∀ (rem : Nat) (q : List OrderEntry) (f : PlannedFill),
    f ∈ (fmQueue ex p rem q).1 →
    f.fillQty ≤ f.entry.remainingQty ∧ f.entry.userId ≠ ex ∧
      f.fillPrice = p ∧ f.entry ∈ q := by
  intro rem q
  induction q generalizing rem with
  | nil =>
    intro f hf
    simp [fmQueue] at hf
  | cons e es ih =>
    intro f hf
    unfold fmQueue at hf
    by_cases h0 : rem = 0
    · rw [if_pos h0] at hf
      simp at hf
    · rw [if_neg h0] at hf
      by_cases hskip : e.userId = ex
      · rw [if_pos hskip] at hf
        have := ih rem f hf
        exact ⟨this.1, this.2.1, this.2.2.1, List.mem_cons_of_mem e this.2.2.2⟩
      · rw [if_neg hskip] at hf
        rcases List.mem_cons.mp hf with h | h
        · subst h
          exact ⟨Nat.min_le_right _ _, hskip, rfl, List.mem_cons_self e es⟩
        · have := ih _ f h
          exact ⟨this.1, this.2.1, this.2.2.1, List.mem_cons_of_mem e this.2.2.2⟩

theorem fmQueue_sum (ex p : Nat) :
    ∀ (rem : Nat) (q : List OrderEntry),
    (fmQueue ex p rem q).2 + ((fmQueue ex p rem q).1.map (fun f => f.fillQty)).sum
      = rem := by
  intro rem q
  induction q generalizing rem with
  | nil => simp [fmQueue]
  | cons e es ih =>
    unfold fmQueue
    by_cases h0 : rem = 0
    · simp [h0]
    · rw [if_neg h0]
      by_cases hskip : e.userId = ex
      · rw [if_pos hskip]
        exact ih rem
      · rw [if_neg hskip]
        have hle : min rem e.remainingQty ≤ rem := Nat.min_le_left _ _
        have := ih (rem - min rem e.remainingQty)
        simp only [List.map_cons, List.sum_cons]
        omega

theorem fmLevelsBuy_entries_sublist (ex : Nat) (lim : Option Nat) :
    ∀ (ls : List PriceLevel) (rem : Nat),
    ((fmLevelsBuy ex lim rem ls).1.map (fun f => f.entry)).Sublist
      ((ls.map Prod.snd).flatten) := by
  intro ls
  induction ls with
  | nil => intro rem; simp [fmLevelsBuy]
  | cons hd tl ih =>
    intro rem
    obtain ⟨p, q⟩ := hd
    unfold fmLevelsBuy
    by_cases h0 : rem = 0
    · simp [h0]
    · rw [if_neg h0]
      by_cases hstop : buyStops lim p = true
      · rw [if_pos hstop]
        simp
      · rw [if_neg hstop]
        simp only [List.map_append, List.map_cons, List.flatten_cons]
        exact (fmQueue_entries_sublist ex p rem q).append (ih _)

theorem fmLevelsBuy_props (ex : Nat) (lim : Option Nat) :
    ∀ (ls : List PriceLevel) (rem : Nat) (f : PlannedFill),
    f ∈ (fmLevelsBuy ex lim rem ls).1 →
    f.fillQty ≤ f.entry.remainingQty ∧ f.entry.userId ≠ ex ∧
      ∃ pl ∈ ls, f.fillPrice = pl.1 ∧ f.entry ∈ pl.2 ∧
        buyStops lim pl.1 = false := by
  intro ls
  induction ls with
  | nil => intro rem f hf; simp [fmLevelsBuy] at hf
  | cons hd tl ih =>
    intro rem f hf
    obtain ⟨p, q⟩ := hd
    unfold fmLevelsBuy at hf
    by_cases h0 : rem = 0
    · rw [if_pos h0] at hf; simp at hf
    · rw [if_neg h0] at hf
      by_cases hstop : buyStops lim p = true
      · rw [if_pos hstop] at hf; simp at hf
      · rw [if_neg hstop] at hf
        rcases List.mem_append.mp hf with h | h
        · have := fmQueue_props ex p rem q f h
          exact ⟨this.1, this.2.1,
            ⟨(p, q), List.mem_cons_self _ _, this.2.2.1, this.2.2.2,
              Bool.of_not_eq_true hstop⟩⟩
        · have := ih _ f h
          obtain ⟨pl, hpl, hrest⟩ := this.2.2
          exact ⟨this.1, this.2.1, ⟨pl, List.mem_cons_of_mem _ hpl, hrest⟩⟩

theorem fmLevelsBuy_sum (ex : Nat) (lim : Option Nat) :
    ∀ (ls : List PriceLevel) (rem : Nat),
    (fmLevelsBuy ex lim rem ls).2
        + ((fmLevelsBuy ex lim rem ls).1.map (fun f => f.fillQty)).sum = rem := by
  intro ls
  induction ls with
  | nil => intro rem; simp [fmLevelsBuy]
  | cons hd tl ih =>
    intro rem
    obtain ⟨p, q⟩ := hd
    unfold fmLevelsBuy
    by_cases h0 : rem = 0
    · simp [h0]
    · rw [if_neg h0]
      by_cases hstop : buyStops lim p = true
      · rw [if_pos hstop]; simp
      · rw [if_neg hstop]
        have hq := fmQueue_sum ex p rem q
        have hl := ih (fmQueue ex p rem q).2
        simp only [List.map_append, List.sum_append]
        omega

theorem fmLevelsSell_entries_sublist (ex : Nat) (lim : Option Nat) :
    ∀ (ls : List PriceLevel) (rem : Nat),
    ((fmLevelsSell ex lim rem ls).1.map (fun f => f.entry)).Sublist
      ((ls.map Prod.snd).flatten) := by
  intro ls
  induction ls with
  | nil => intro rem; simp [fmLevelsSell]
  | cons hd tl ih =>
    intro rem
    obtain ⟨p, q⟩ := hd
    unfold fmLevelsSell
    by_cases h0 : rem = 0
    · simp [h0]
    · rw [if_neg h0]
      by_cases hstop : sellStops lim p = true
      · rw [if_pos hstop]
        simp
      · rw [if_neg hstop]
        simp only [List.map_append, List.map_cons, List.flatten_cons]
        exact (fmQueue_entries_sublist ex p rem q).append (ih _)

theorem fmLevelsSell_props (ex : Nat) (lim : Option Nat) :
    ∀ (ls : List PriceLevel) (rem : Nat) (f : PlannedFill),
    f ∈ (fmLevelsSell ex lim rem ls).1 →
    f.fillQty ≤ f.entry.remainingQty ∧ f.entry.userId ≠ ex ∧
      ∃ pl ∈ ls, f.fillPrice = pl.1 ∧ f.entry ∈ pl.2 ∧
        sellStops lim pl.1 = false := by
  intro ls
  induction ls with
  | nil => intro rem f hf; simp [fmLevelsSell] at hf
  | cons hd tl ih =>
    intro rem f hf
    obtain ⟨p, q⟩ := hd
    unfold fmLevelsSell at hf
    by_cases h0 : rem = 0
    · rw [if_pos h0] at hf; simp at hf
    · rw [if_neg h0] at hf
      by_cases hstop : sellStops lim p = true
      · rw [if_pos hstop] at hf; simp at hf
      · rw [if_neg hstop] at hf
        rcases List.mem_append.mp hf with h | h
        · have := fmQueue_props ex p rem q f h
          exact ⟨this.1, this.2.1,
            ⟨(p, q), List.mem_cons_self _ _, this.2.2.1, this.2.2.2,
              Bool.of_not_eq_true hstop⟩⟩
        · have := ih _ f h
          obtain ⟨pl, hpl, hrest⟩ := this.2.2
          exact ⟨this.1, this.2.1, ⟨pl, List.mem_cons_of_mem _ hpl, hrest⟩⟩

theorem fmLevelsSell_sum (ex : Nat) (lim : Option Nat) :
    ∀ (ls : List PriceLevel) (rem : Nat),
    (fmLevelsSell ex lim rem ls).2
        + ((fmLevelsSell ex lim rem ls).1.map (fun f => f.fillQty)).sum = rem := by
  intro ls
  induction ls with
  | nil => intro rem; simp [fmLevelsSell]
  | cons hd tl ih =>
    intro rem
    obtain ⟨p, q⟩ := hd
    unfold fmLevelsSell
    by_cases h0 : rem = 0
    · simp [h0]
    · rw [if_neg h0]
      by_cases hstop : sellStops lim p = true
      · rw [if_pos hstop]; simp
      · rw [if_neg hstop]
        have hq := fmQueue_sum ex p rem q
        have hl := ih (fmQueue ex p rem q).2
        simp only [List.map_append, List.sum_append]
        omega

theorem fmQueue_pairwise_seq (ex p rem : Nat) (q : List OrderEntry)
    (hq : q.Pairwise (fun a b => a.seq ≤ b.seq)) :
    (fmQueue ex p rem q).1.Pairwise (fun f g => f.entry.seq ≤ g.entry.seq) := by
  have hs := fmQueue_entries_sublist ex p rem q
  have := hq.sublist hs
  rwa [List.pairwise_map] at this

theorem fmLevelsBuy_pairwise (ex : Nat) (lim : Option Nat) :
    ∀ (ls : List PriceLevel) (rem : Nat),
    ls.Pairwise (fun l1 l2 => l1.1 < l2.1) →
    (∀ pl ∈ ls, pl.2.Pairwise (fun a b => a.seq ≤ b.seq)) →
    (fmLevelsBuy ex lim rem ls).1.Pairwise (fun f g =>
      f.fillPrice ≤ g.fillPrice ∧
        (f.fillPrice = g.fillPrice → f.entry.seq ≤ g.entry.seq)) := by
  intro ls
  induction ls with
  | nil => intro rem _ _; simp [fmLevelsBuy]
  | cons hd tl ih =>
    intro rem hsorted hfifo
    obtain ⟨p, q⟩ := hd
    unfold fmLevelsBuy
    by_cases h0 : rem = 0
    · simp [h0]
    · rw [if_neg h0]
      by_cases hstop : buyStops lim p = true
      · rw [if_pos hstop]; simp
      · rw [if_neg hstop]
        rw [List.pairwise_append]
        refine ⟨?_, ?_, ?_⟩
        · have hseq := fmQueue_pairwise_seq ex p rem q (hfifo (p, q) (List.mem_cons_self _ _))
          refine hseq.imp_of_mem ?_
          intro f g hf hg hr
          have hfp := (fmQueue_props ex p rem q f hf).2.2.1
          have hgp := (fmQueue_props ex p rem q g hg).2.2.1
          exact ⟨by rw [hfp, hgp], fun _ => hr⟩
        · exact ih _ hsorted.of_cons
            (fun pl hpl => hfifo pl (List.mem_cons_of_mem _ hpl))
        · intro f hf g hg
          have hfp := (fmQueue_props ex p rem q f hf).2.2.1
          obtain ⟨pl, hpl, hgp, _⟩ := (fmLevelsBuy_props ex lim tl _ g hg).2.2
          have hlt : p < pl.1 := List.rel_of_pairwise_cons hsorted hpl
          constructor
          · rw [hfp, hgp]; exact Nat.le_of_lt hlt
          · intro heq
            rw [hfp, hgp] at heq
            omega

theorem fmLevelsSell_pairwise (ex : Nat) (lim : Option Nat) :
    ∀ (ls : List PriceLevel) (rem : Nat),
    ls.Pairwise (fun l1 l2 => l2.1 < l1.1) →
    (∀ pl ∈ ls, pl.2.Pairwise (fun a b => a.seq ≤ b.seq)) →
    (fmLevelsSell ex lim rem ls).1.Pairwise (fun f g =>
      g.fillPrice ≤ f.fillPrice ∧
        (f.fillPrice = g.fillPrice → f.entry.seq ≤ g.entry.seq)) := by
  intro ls
  induction ls with
  | nil => intro rem _ _; simp [fmLevelsSell]
  | cons hd tl ih =>
    intro rem hsorted hfifo
    obtain ⟨p, q⟩ := hd
    unfold fmLevelsSell
    by_cases h0 : rem = 0
    · simp [h0]
    · rw [if_neg h0]
      by_cases hstop : sellStops lim p = true
      · rw [if_pos hstop]; simp
      · rw [if_neg hstop]
        rw [List.pairwise_append]
        refine ⟨?_, ?_, ?_⟩
        · have hseq := fmQueue_pairwise_seq ex p rem q (hfifo (p, q) (List.mem_cons_self _ _))
          refine hseq.imp_of_mem ?_
          intro f g hf hg hr
          have hfp := (fmQueue_props ex p rem q f hf).2.2.1
          have hgp := (fmQueue_props ex p rem q g hg).2.2.1
          exact ⟨by rw [hfp, hgp], fun _ => hr⟩
        · exact ih _ hsorted.of_cons
            (fun pl hpl => hfifo pl (List.mem_cons_of_mem _ hpl))
        · intro f hf g hg
          have hfp := (fmQueue_props ex p rem q f hf).2.2.1
          obtain ⟨pl, hpl, hgp, _⟩ := (fmLevelsSell_props ex lim tl _ g hg).2.2
          have hlt : pl.1 < p := List.rel_of_pairwise_cons hsorted hpl
          constructor
          · rw [hfp, hgp]; exact Nat.le_of_lt hlt
          · intro heq
            rw [hfp, hgp] at heq
            omega

/-! ## Claim C4: self-trade prevention -/

/-- Claim C4 counterexample: the `packages/server`
`MatchingEngine.processOrder` has no self-trade check — user 7's incoming
BUY LIMIT 50 x 5 is planned to fill against user 7's own resting ask, so
"the matching walk never plans a fill against a resting entry whose userId
equals the incoming order's userId" is false for this engine. -/
theorem self_trade_counterexample :
    (engineProcessOrder ⟨[(50, [⟨201, 7, Side.SELL, 50, 5, 1⟩])], []⟩ 0
        ⟨301, 7, Side.BUY, OType.LIMIT, some 50, 5⟩ 100).1.fills
      = [⟨201, 301, 7, 7, 50, 5, 2⟩] ∧
    (engineProcessOrder ⟨[(50, [⟨201, 7, Side.SELL, 50, 5, 1⟩])], []⟩ 0
        ⟨301, 7, Side.BUY, OType.LIMIT, some 50, 5⟩ 100).1.fills.any
      (fun f => f.makerUserId == f.takerUserId) = true := by
  decide

/-- Claim C4 amended: the book-level matching walk (`findMatches` of
`src/unnamed/part_006`, identically Go `FindMatches`) silently skips every
resting entry whose `userId` equals `excludeUserId` — no planned fill is
ever against the excluded user, for every incoming order and every book
state.  The `packages/server` `MatchingEngine.processOrder`, however,
performs no self-trade check and plans fills against the taker's own
resting orders (see the counterexample). -/
theorem self_trade_prevention_amended :
    ∀ (b : Book) (side : Side) (limit : Option Nat) (maxQty ex : Nat)
      (f : PlannedFill), f ∈ findMatches b side limit maxQty ex →
    f.entry.userId ≠ ex := by
  intro b side limit maxQty ex f hf
  cases side
  · exact (fmLevelsBuy_props ex limit b.askLevels maxQty f hf).2.1
  · exact (fmLevelsSell_props ex limit b.bidLevels maxQty f hf).2.1

/-- Claim C4 amended, witness: user 1 crossing a book where user 1 also
has the best ask; the planned fill is against user 2's entry. -/
theorem self_trade_prevention_amended_witness :
    (⟨⟨102, 2, Side.SELL, 58, 5, 0, 2⟩, 5, 58⟩ : PlannedFill) ∈
      findMatches
        ⟨[(55, [⟨101, 1, Side.SELL, 55, 10, 0, 1⟩]),
          (58, [⟨102, 2, Side.SELL, 58, 5, 0, 2⟩])], []⟩
        Side.BUY (some 60) 18 1 ∧
    (⟨⟨102, 2, Side.SELL, 58, 5, 0, 2⟩, 5, 58⟩ : PlannedFill).entry.userId ≠ 1 :=
  ⟨by decide,
    self_trade_prevention_amended
      ⟨[(55, [⟨101, 1, Side.SELL, 55, 10, 0, 1⟩]),
        (58, [⟨102, 2, Side.SELL, 58, 5, 0, 2⟩])], []⟩
      Side.BUY (some 60) 18 1 _ (by decide)⟩

/-! ## Claim C5: price-time priority -/

/-- Claim C5: on a well-formed book (ask levels strictly ascending, bid
levels strictly descending, FIFO queues with non-decreasing `seq`, every
entry stored under its own price), the planned fills of a BUY taker have
non-decreasing prices, with non-decreasing maker `seq` within a price
level, and symmetrically (non-increasing prices) for a SELL taker; every
fill executes at the maker's resting price. -/
theorem price_time_priority :
    ∀ (b : Book) (limit : Option Nat) (maxQty ex : Nat),
    b.askLevels.Pairwise (fun l1 l2 => l1.1 < l2.1) →
    b.bidLevels.Pairwise (fun l1 l2 => l2.1 < l1.1) →
    (∀ pl ∈ b.askLevels, pl.2.Pairwise (fun a b => a.seq ≤ b.seq)) →
    (∀ pl ∈ b.bidLevels, pl.2.Pairwise (fun a b => a.seq ≤ b.seq)) →
    (∀ pl ∈ b.askLevels, ∀ e ∈ pl.2, e.priceCents = pl.1) →
    (∀ pl ∈ b.bidLevels, ∀ e ∈ pl.2, e.priceCents = pl.1) →
    ((findMatches b Side.BUY limit maxQty ex).Pairwise (fun f g =>
        f.fillPrice ≤ g.fillPrice ∧
          (f.fillPrice = g.fillPrice → f.entry.seq ≤ g.entry.seq)) ∧
      ∀ f ∈ findMatches b Side.BUY limit maxQty ex,
        f.fillPrice = f.entry.priceCents) ∧
    ((findMatches b Side.SELL limit maxQty ex).Pairwise (fun f g =>
        g.fillPrice ≤ f.fillPrice ∧
          (f.fillPrice = g.fillPrice → f.entry.seq ≤ g.entry.seq)) ∧
      ∀ f ∈ findMatches b Side.SELL limit maxQty ex,
        f.fillPrice = f.entry.priceCents) := by
  intro b limit maxQty ex hasc hdesc hfifoA hfifoB hcohA hcohB
  refine ⟨⟨fmLevelsBuy_pairwise ex limit b.askLevels maxQty hasc hfifoA, ?_⟩,
    ⟨fmLevelsSell_pairwise ex limit b.bidLevels maxQty hdesc hfifoB, ?_⟩⟩
  · intro f hf
    obtain ⟨pl, hpl, hfp, hfe, _⟩ :=
      (fmLevelsBuy_props ex limit b.askLevels maxQty f hf).2.2
    rw [hfp, hcohA pl hpl f.entry hfe]
  · intro f hf
    obtain ⟨pl, hpl, hfp, hfe, _⟩ :=
      (fmLevelsSell_props ex limit b.bidLevels maxQty f hf).2.2
    rw [hfp, hcohB pl hpl f.entry hfe]

/-- Claim C5, witness: the three-level ask book of the end-to-end spec
scenario. -/
theorem price_time_priority_witness :
    ((⟨[(55, [⟨101, 1, Side.SELL, 55, 10, 0, 1⟩]),
        (58, [⟨102, 2, Side.SELL, 58, 5, 0, 2⟩]),
        (60, [⟨103, 2, Side.SELL, 60, 20, 0, 3⟩])], []⟩ : Book).askLevels.Pairwise
      (fun l1 l2 => l1.1 < l2.1)) ∧
    ((findMatches ⟨[(55, [⟨101, 1, Side.SELL, 55, 10, 0, 1⟩]),
        (58, [⟨102, 2, Side.SELL, 58, 5, 0, 2⟩]),
        (60, [⟨103, 2, Side.SELL, 60, 20, 0, 3⟩])], []⟩
          Side.BUY (some 60) 18 9).Pairwise (fun f g =>
        f.fillPrice ≤ g.fillPrice ∧
          (f.fillPrice = g.fillPrice → f.entry.seq ≤ g.entry.seq)) ∧
      ∀ f ∈ findMatches ⟨[(55, [⟨101, 1, Side.SELL, 55, 10, 0, 1⟩]),
        (58, [⟨102, 2, Side.SELL, 58, 5, 0, 2⟩]),
        (60, [⟨103, 2, Side.SELL, 60, 20, 0, 3⟩])], []⟩
          Side.BUY (some 60) 18 9,
        f.fillPrice = f.entry.priceCents) :=
  ⟨by decide,
    (price_time_priority
      ⟨[(55, [⟨101, 1, Side.SELL, 55, 10, 0, 1⟩]),
        (58, [⟨102, 2, Side.SELL, 58, 5, 0, 2⟩]),
        (60, [⟨103, 2, Side.SELL, 60, 20, 0, 3⟩])], []⟩
      (some 60) 18 9 (by decide) (by decide) (by decide) (by decide)
      (by decide) (by decide)).1⟩

/-! ## Claim C10: the matching walk never over-allocates -/

/-- Claim C10: for every book whose entries have pairwise-distinct order
ids and every `find_matches` call, the planned fill quantities sum to at
most `maxQty`; each planned fill takes at most the maker entry's remaining
quantity (and each entry is planned against at most once, so this is also
the bound net of earlier planned fills); and the walk returns the book
unchanged. -/
theorem matching_walk_no_overallocation :
    ∀ (b : Book) (side : Side) (limit : Option Nat) (maxQty ex : Nat),
    (bookEntries b).Pairwise (fun e1 e2 => e1.orderId ≠ e2.orderId) →
    (((findMatches b side limit maxQty ex).map (fun f => f.fillQty)).sum ≤ maxQty) ∧
    (∀ f ∈ findMatches b side limit maxQty ex,
      f.fillQty ≤ f.entry.remainingQty) ∧
    (findMatches b side limit maxQty ex).Pairwise
      (fun f g => f.entry.orderId ≠ g.entry.orderId) ∧
    findMatchesRun b side limit maxQty ex
      = (findMatches b side limit maxQty ex, b) := by
  intro b side limit maxQty ex hids
  cases side
  · refine ⟨?_, ?_, ?_, rfl⟩
    · have := fmLevelsBuy_sum ex limit b.askLevels maxQty
      show ((fmLevelsBuy ex limit maxQty b.askLevels).1.map (fun f => f.fillQty)).sum ≤ maxQty
      omega
    · intro f hf
      exact (fmLevelsBuy_props ex limit b.askLevels maxQty f hf).1
    · have hsub : ((fmLevelsBuy ex limit maxQty b.askLevels).1.map
          (fun f => f.entry)).Sublist (bookEntries b) :=
        (fmLevelsBuy_entries_sublist ex limit b.askLevels maxQty).trans
          (List.sublist_append_left _ _)
      have := hids.sublist hsub
      rwa [List.pairwise_map] at this
  · refine ⟨?_, ?_, ?_, rfl⟩
    · have := fmLevelsSell_sum ex limit b.bidLevels maxQty
      show ((fmLevelsSell ex limit maxQty b.bidLevels).1.map (fun f => f.fillQty)).sum ≤ maxQty
      omega
    · intro f hf
      exact (fmLevelsSell_props ex limit b.bidLevels maxQty f hf).1
    · have hsub : ((fmLevelsSell ex limit maxQty b.bidLevels).1.map
          (fun f => f.entry)).Sublist (bookEntries b) :=
        (fmLevelsSell_entries_sublist ex limit b.bidLevels maxQty).trans
          (List.sublist_append_right _ _)
      have := hids.sublist hsub
      rwa [List.pairwise_map] at this

/-- Claim C10, witness: the BUY walk over a two-level ask book. -/
theorem matching_walk_no_overallocation_witness :
    (bookEntries ⟨[(55, [⟨101, 1, Side.SELL, 55, 10, 0, 1⟩]),
        (58, [⟨102, 2, Side.SELL, 58, 5, 0, 2⟩])], []⟩).Pairwise
      (fun e1 e2 => e1.orderId ≠ e2.orderId) ∧
    (((findMatches ⟨[(55, [⟨101, 1, Side.SELL, 55, 10, 0, 1⟩]),
        (58, [⟨102, 2, Side.SELL, 58, 5, 0, 2⟩])], []⟩
        Side.BUY (some 60) 12 9).map (fun f => f.fillQty)).sum ≤ 12) :=
  ⟨by decide,
    (matching_walk_no_overallocation
      ⟨[(55, [⟨101, 1, Side.SELL, 55, 10, 0, 1⟩]),
        (58, [⟨102, 2, Side.SELL, 58, 5, 0, 2⟩])], []⟩
      Side.BUY (some 60) 12 9 (by decide)).1⟩

/-! ## Lemmas about the `packages/server` engine walk -/

theorem engQueue_props (tOid tUid bps : Nat) :
    ∀ (q : List OrderRef) (rem : Nat) (ex : List Nat) (upd : List (Nat × Nat))
      (f : Fill), f ∈ (engQueue tOid tUid bps q rem ex upd).fills →
    f.takerFeeCents = computeTakerFee f.priceCents f.qty bps ∧
      ∃ m ∈ q, f.priceCents = m.priceCents := by
  intro q
  induction q with
  | nil => intro rem ex upd f hf; simp [engQueue] at hf
  | cons maker rest ih =>
    intro rem ex upd f hf
    unfold engQueue at hf
    by_cases h0 : rem = 0
    · rw [if_pos h0] at hf; simp at hf
    · rw [if_neg h0] at hf
      simp only [] at hf
      by_cases hav : virtualRemaining ex upd maker = 0
      · rw [if_pos hav] at hf
        obtain ⟨hfee, m, hm, hp⟩ := ih rem ex upd f hf
        exact ⟨hfee, m, List.mem_cons_of_mem _ hm, hp⟩
      · rw [if_neg hav] at hf
        rcases List.mem_cons.mp hf with h | h
        · subst h
          exact ⟨rfl, maker, List.mem_cons_self _ _, rfl⟩
        · obtain ⟨hfee, m, hm, hp⟩ := ih _ _ _ f h
          exact ⟨hfee, m, List.mem_cons_of_mem _ hm, hp⟩

theorem engQueue_sum (tOid tUid bps : Nat) :
    ∀ (q : List OrderRef) (rem : Nat) (ex : List Nat) (upd : List (Nat × Nat)),
    (engQueue tOid tUid bps q rem ex upd).rem
        + ((engQueue tOid tUid bps q rem ex upd).fills.map (fun f => f.qty)).sum
      = rem := by
  intro q
  induction q with
  | nil => intro rem ex upd; simp [engQueue]
  | cons maker rest ih =>
    intro rem ex upd
    unfold engQueue
    by_cases h0 : rem = 0
    · rw [if_pos h0]; simp
    · rw [if_neg h0]
      simp only []
      by_cases hav : virtualRemaining ex upd maker = 0
      · rw [if_pos hav]
        exact ih rem ex upd
      · rw [if_neg hav]
        have hle : min rem (virtualRemaining ex upd maker) ≤ rem :=
          Nat.min_le_left _ _
        have := ih (rem - min rem (virtualRemaining ex upd maker))
          (if virtualRemaining ex upd maker - min rem (virtualRemaining ex upd maker) = 0
            then ex ++ [maker.orderId] else ex)
          (if virtualRemaining ex upd maker - min rem (virtualRemaining ex upd maker) = 0
            then upd else setAssoc upd maker.orderId
              (virtualRemaining ex upd maker - min rem (virtualRemaining ex upd maker)))
        simp only [List.map_cons, List.sum_cons]
        omega

theorem engLevelsBuy_props (ord : IncomingOrder) (bps : Nat) :
    ∀ (ls : List (Nat × List OrderRef)) (rem : Nat) (ex : List Nat)
      (upd : List (Nat × Nat)) (f : Fill),
    f ∈ (engLevelsBuy ord bps ls rem ex upd).fills →
    f.takerFeeCents = computeTakerFee f.priceCents f.qty bps ∧
      ∃ pl ∈ ls, (∃ m ∈ pl.2, f.priceCents = m.priceCents) ∧
        ¬ (ord.otype = OType.LIMIT ∧ buyStops ord.priceCents pl.1 = true) := by
  intro ls
  induction ls with
  | nil => intro rem ex upd f hf; simp [engLevelsBuy] at hf
  | cons hd tl ih =>
    intro rem ex upd f hf
    obtain ⟨p, q⟩ := hd
    unfold engLevelsBuy at hf
    by_cases h0 : rem = 0
    · rw [if_pos h0] at hf; simp at hf
    · rw [if_neg h0] at hf
      by_cases hstop : ord.otype = OType.LIMIT ∧ buyStops ord.priceCents p = true
      · rw [if_pos hstop] at hf; simp at hf
      · rw [if_neg hstop] at hf
        rcases List.mem_append.mp hf with h | h
        · obtain ⟨hfee, m, hm, hp⟩ :=
            engQueue_props ord.orderId ord.userId bps q rem ex upd f h
          exact ⟨hfee, (p, q), List.mem_cons_self _ _, ⟨m, hm, hp⟩, hstop⟩
        · obtain ⟨hfee, pl, hpl, hrest⟩ := ih _ _ _ f h
          exact ⟨hfee, pl, List.mem_cons_of_mem _ hpl, hrest⟩

theorem engLevelsBuy_sum (ord : IncomingOrder) (bps : Nat) :
    ∀ (ls : List (Nat × List OrderRef)) (rem : Nat) (ex : List Nat)
      (upd : List (Nat × Nat)),
    (engLevelsBuy ord bps ls rem ex upd).rem
        + ((engLevelsBuy ord bps ls rem ex upd).fills.map (fun f => f.qty)).sum
      = rem := by
  intro ls
  induction ls with
  | nil => intro rem ex upd; simp [engLevelsBuy]
  | cons hd tl ih =>
    intro rem ex upd
    obtain ⟨p, q⟩ := hd
    unfold engLevelsBuy
    by_cases h0 : rem = 0
    · rw [if_pos h0]; simp
    · rw [if_neg h0]
      by_cases hstop : ord.otype = OType.LIMIT ∧ buyStops ord.priceCents p = true
      · rw [if_pos hstop]; simp
      · rw [if_neg hstop]
        have hq := engQueue_sum ord.orderId ord.userId bps q rem ex upd
        have hl := ih (engQueue ord.orderId ord.userId bps q rem ex upd).rem
          (engQueue ord.orderId ord.userId bps q rem ex upd).ex
          (engQueue ord.orderId ord.userId bps q rem ex upd).upd
        simp only [List.map_append, List.sum_append]
        omega

theorem engLevelsSell_props (ord : IncomingOrder) (bps : Nat) :
    ∀ (ls : List (Nat × List OrderRef)) (rem : Nat) (ex : List Nat)
      (upd : List (Nat × Nat)) (f : Fill),
    f ∈ (engLevelsSell ord bps ls rem ex upd).fills →
    f.takerFeeCents = computeTakerFee f.priceCents f.qty bps ∧
      ∃ pl ∈ ls, (∃ m ∈ pl.2, f.priceCents = m.priceCents) ∧
        ¬ (ord.otype = OType.LIMIT ∧ sellStops ord.priceCents pl.1 = true) := by
  intro ls
  induction ls with
  | nil => intro rem ex upd f hf; simp [engLevelsSell] at hf
  | cons hd tl ih =>
    intro rem ex upd f hf
    obtain ⟨p, q⟩ := hd
    unfold engLevelsSell at hf
    by_cases h0 : rem = 0
    · rw [if_pos h0] at hf; simp at hf
    · rw [if_neg h0] at hf
      by_cases hstop : ord.otype = OType.LIMIT ∧ sellStops ord.priceCents p = true
      · rw [if_pos hstop] at hf; simp at hf
      · rw [if_neg hstop] at hf
        rcases List.mem_append.mp hf with h | h
        · obtain ⟨hfee, m, hm, hp⟩ :=
            engQueue_props ord.orderId ord.userId bps q rem ex upd f h
          exact ⟨hfee, (p, q), List.mem_cons_self _ _, ⟨m, hm, hp⟩, hstop⟩
        · obtain ⟨hfee, pl, hpl, hrest⟩ := ih _ _ _ f h
          exact ⟨hfee, pl, List.mem_cons_of_mem _ hpl, hrest⟩

theorem engLevelsSell_sum (ord : IncomingOrder) (bps : Nat) :
    ∀ (ls : List (Nat × List OrderRef)) (rem : Nat) (ex : List Nat)
      (upd : List (Nat × Nat)),
    (engLevelsSell ord bps ls rem ex upd).rem
        + ((engLevelsSell ord bps ls rem ex upd).fills.map (fun f => f.qty)).sum
      = rem := by
  intro ls
  induction ls with
  | nil => intro rem ex upd; simp [engLevelsSell]
  | cons hd tl ih =>
    intro rem ex upd
    obtain ⟨p, q⟩ := hd
    unfold engLevelsSell
    by_cases h0 : rem = 0
    · rw [if_pos h0]; simp
    · rw [if_neg h0]
      by_cases hstop : ord.otype = OType.LIMIT ∧ sellStops ord.priceCents p = true
      · rw [if_pos hstop]; simp
      · rw [if_neg hstop]
        have hq := engQueue_sum ord.orderId ord.userId bps q rem ex upd
        have hl := ih (engQueue ord.orderId ord.userId bps q rem ex upd).rem
          (engQueue ord.orderId ord.userId bps q rem ex upd).ex
          (engQueue ord.orderId ord.userId bps q rem ex upd).upd
        simp only [List.map_append, List.sum_append]
        omega

theorem nat_div_add_div_le (a b m : Nat) : a / m + b / m ≤ (a + b) / m := by
  rcases Nat.eq_zero_or_pos m with hm | hm
  · simp [hm]
  · rw [Nat.le_div_iff_mul_le hm, Nat.add_mul]
    exact Nat.add_le_add (Nat.div_mul_le_self a m) (Nat.div_mul_le_self b m)

theorem fill_qty_sum_mul (c : Nat) :
    ∀ fills : List Fill,
    (fills.map (fun f => f.qty * c)).sum = (fills.map (fun f => f.qty)).sum * c := by
  intro fills
  induction fills with
  | nil => simp
  | cons f rest ih => simp [ih, Nat.add_mul]

/-- Summed floor fees against one ceiling estimate: if every fill's fee is
`floor(price * qty * bps / 10000)` with `price ≤ P` and the fill
quantities sum to at most `Q`, the fee total is at most
`ceil(P * Q * bps / 10000)`. -/
theorem fee_sum_le (bps P Q : Nat) :
    ∀ fills : List Fill,
    (∀ f ∈ fills, f.takerFeeCents = computeTakerFee f.priceCents f.qty bps) →
    (∀ f ∈ fills, f.priceCents ≤ P) →
    (fills.map (fun f => f.qty)).sum ≤ Q →
    (fills.map (fun f => f.takerFeeCents)).sum ≤ ceilDiv10k (P * Q * bps) := by
  intro fills hfee hp hq
  have h1 : (fills.map (fun f => f.takerFeeCents)).sum
      ≤ ((fills.map (fun f => f.priceCents * f.qty * bps)).sum) / 10000 := by
    clear hq
    induction fills with
    | nil => simp
    | cons f rest ih =>
      have hf := hfee f (List.mem_cons_self _ _)
      have hrest := ih (fun g hg => hfee g (List.mem_cons_of_mem _ hg))
        (fun g hg => hp g (List.mem_cons_of_mem _ hg))
      simp only [List.map_cons, List.sum_cons]
      calc f.takerFeeCents + (rest.map (fun f => f.takerFeeCents)).sum
          ≤ f.priceCents * f.qty * bps / 10000
            + ((rest.map (fun f => f.priceCents * f.qty * bps)).sum) / 10000 := by
            rw [hf]; exact Nat.add_le_add_left hrest _
        _ ≤ (f.priceCents * f.qty * bps
            + (rest.map (fun f => f.priceCents * f.qty * bps)).sum) / 10000 :=
            nat_div_add_div_le _ _ _
  have h2 : (fills.map (fun f => f.priceCents * f.qty * bps)).sum ≤ P * Q * bps := by
    have hpt : ∀ f ∈ fills, f.priceCents * f.qty * bps ≤ f.qty * (P * bps) := by
      intro f hf
      have := hp f hf
      calc f.priceCents * f.qty * bps ≤ P * f.qty * bps :=
            Nat.mul_le_mul_right bps (Nat.mul_le_mul_right f.qty this)
        _ = f.qty * (P * bps) := by ring
    calc (fills.map (fun f => f.priceCents * f.qty * bps)).sum
        ≤ (fills.map (fun f => f.qty * (P * bps))).sum := List.sum_le_sum hpt
      _ = (fills.map (fun f => f.qty)).sum * (P * bps) := fill_qty_sum_mul _ _
      _ ≤ Q * (P * bps) := Nat.mul_le_mul_right _ hq
      _ = P * Q * bps := by ring
  calc (fills.map (fun f => f.takerFeeCents)).sum
      ≤ ((fills.map (fun f => f.priceCents * f.qty * bps)).sum) / 10000 := h1
    _ ≤ (P * Q * bps) / 10000 := Nat.div_le_div_right h2
    _ ≤ ceilDiv10k (P * Q * bps) :=
        Nat.div_le_div_right (Nat.le_add_right _ _)

theorem engineProcessOrderBuy_fills (b : PsBook) (seqCtr oid uid : Nat)
    (otype : OType) (pc : Option Nat) (qty bps : Nat) :
    (engineProcessOrder b seqCtr ⟨oid, uid, Side.BUY, otype, pc, qty⟩ bps).1.fills
      = (engLevelsBuy ⟨oid, uid, Side.BUY, otype, pc, qty⟩ bps
          (b.askLevels.take 999) qty [] []).fills := by
  simp only [engineProcessOrder]
  split_ifs <;> rfl

theorem engineProcessOrderSell_fills (b : PsBook) (seqCtr oid uid : Nat)
    (otype : OType) (pc : Option Nat) (qty bps : Nat) :
    (engineProcessOrder b seqCtr ⟨oid, uid, Side.SELL, otype, pc, qty⟩ bps).1.fills
      = (engLevelsSell ⟨oid, uid, Side.SELL, otype, pc, qty⟩ bps
          (b.bidLevels.take 999) qty [] []).fills := by
  simp only [engineProcessOrder]
  split_ifs <;> rfl

/-! ## Claim C6: fee rounding asymmetry -/

/-- Claim C6 counterexample: a SELL LIMIT at 1 cent for 10 shares crossing
a resting bid at 99 is charged `floor(99·10·100/10000) = 9` cents of taker
fee, while the fee estimate in its lock is `ceil(1·10·100/10000) = 1` —
the charged fee exceeds the locked fee estimate, refuting "for any order
the total charged fee never exceeds the fee amount locked". -/
theorem fee_rounding_counterexample :
    ((engineProcessOrder ⟨[], [(99, [⟨401, 9, Side.BUY, 99, 10, 1⟩])]⟩ 0
        ⟨501, 3, Side.SELL, OType.LIMIT, some 1, 10⟩ 100).1.fills.map
      (fun f => f.takerFeeCents)).sum = 9 ∧
    lockRequired Side.SELL OType.LIMIT (some 1) 10 100
      = (100 - 1) * 10 + ceilDiv10k (1 * 10 * 100) ∧
    ceilDiv10k (1 * 10 * 100) = 1 ∧
    ¬ (9 ≤ 1) := by
  decide

/-- Claim C6 amended: the lock fee estimate is
`ceil(P_ref × qty × FEE_BPS / 10000)` and the charged taker fee per fill
is `floor(fill_price × fill_qty × FEE_BPS / 10000)` as claimed; the
consequence — total charged fee never exceeds the locked fee estimate —
holds for every BUY order and for every MARKET order (whose fill prices
cannot exceed the reference price), but not for SELL LIMIT orders, whose
fills execute at bid prices above the limit price (see the
counterexample). -/
theorem fee_rounding_asymmetry_amended :
    ∀ (b : PsBook) (seqCtr bps oid uid qty P : Nat),
    ((∀ pl ∈ b.askLevels, ∀ m ∈ pl.2, m.priceCents = pl.1) →
      ((engineProcessOrder b seqCtr
          ⟨oid, uid, Side.BUY, OType.LIMIT, some P, qty⟩ bps).1.fills.map
        (fun f => f.takerFeeCents)).sum ≤ ceilDiv10k (P * qty * bps)) ∧
    ((∀ pl ∈ b.askLevels, ∀ m ∈ pl.2, m.priceCents ≤ MAX_PRICE_CENTS) →
      ((engineProcessOrder b seqCtr
          ⟨oid, uid, Side.BUY, OType.MARKET, none, qty⟩ bps).1.fills.map
        (fun f => f.takerFeeCents)).sum
        ≤ ceilDiv10k (MAX_PRICE_CENTS * qty * bps)) ∧
    ((∀ pl ∈ b.bidLevels, ∀ m ∈ pl.2, m.priceCents ≤ MAX_PRICE_CENTS) →
      ((engineProcessOrder b seqCtr
          ⟨oid, uid, Side.SELL, OType.MARKET, none, qty⟩ bps).1.fills.map
        (fun f => f.takerFeeCents)).sum
        ≤ ceilDiv10k (MAX_PRICE_CENTS * qty * bps)) ∧
    (∀ (side : Side) (otype : OType) (pc : Option Nat) (q fb : Nat),
      lockRequired side otype pc q fb
        = lockPerShare side otype pc * q
          + ceilDiv10k
            ((if otype = OType.MARKET then MAX_PRICE_CENTS else pc.getD 0)
              * q * fb)) := by
  intro b seqCtr bps oid uid qty P
  refine ⟨?_, ?_, ?_, ?_⟩
  · intro hcoh
    rw [engineProcessOrderBuy_fills]
    set ord : IncomingOrder := ⟨oid, uid, Side.BUY, OType.LIMIT, some P, qty⟩ with hord
    apply fee_sum_le
    · intro f hf
      exact (engLevelsBuy_props ord bps _ qty [] [] f hf).1
    · intro f hf
      obtain ⟨pl, hpl, ⟨m, hm, hp⟩, hstop⟩ :=
        (engLevelsBuy_props ord bps _ qty [] [] f hf).2
      have hmem : pl ∈ b.askLevels := List.mem_of_mem_take hpl
      have hple : pl.1 ≤ P := by
        have hns : ¬ buyStops (some P) pl.1 = true := fun hb => hstop ⟨rfl, hb⟩
        simp only [buyStops, decide_eq_true_eq] at hns
        omega
      rw [hp, hcoh pl hmem m hm]
      exact hple
    · have := engLevelsBuy_sum ord bps (b.askLevels.take 999) qty [] []
      omega
  · intro hbound
    rw [engineProcessOrderBuy_fills]
    set ord : IncomingOrder := ⟨oid, uid, Side.BUY, OType.MARKET, none, qty⟩ with hord
    apply fee_sum_le
    · intro f hf
      exact (engLevelsBuy_props ord bps _ qty [] [] f hf).1
    · intro f hf
      obtain ⟨pl, hpl, ⟨m, hm, hp⟩, _⟩ :=
        (engLevelsBuy_props ord bps _ qty [] [] f hf).2
      rw [hp]
      exact hbound pl (List.mem_of_mem_take hpl) m hm
    · have := engLevelsBuy_sum ord bps (b.askLevels.take 999) qty [] []
      omega
  · intro hbound
    rw [engineProcessOrderSell_fills]
    set ord : IncomingOrder := ⟨oid, uid, Side.SELL, OType.MARKET, none, qty⟩ with hord
    apply fee_sum_le
    · intro f hf
      exact (engLevelsSell_props ord bps _ qty [] [] f hf).1
    · intro f hf
      obtain ⟨pl, hpl, ⟨m, hm, hp⟩, _⟩ :=
        (engLevelsSell_props ord bps _ qty [] [] f hf).2
      rw [hp]
      exact hbound pl (List.mem_of_mem_take hpl) m hm
    · have := engLevelsSell_sum ord bps (b.bidLevels.take 999) qty [] []
      omega
  · intro side otype pc q fb
    cases side <;> cases otype <;>
      simp [lockRequired, lockPerShare, Nat.add_mul]

/-- Claim C6 amended, witness: a BUY LIMIT 50 x 9 crossing one ask of 5 at
50 pays 2 cents of fee, within the locked estimate of 5. -/
theorem fee_rounding_asymmetry_amended_witness :
    (∀ pl ∈ (⟨[(50, [⟨201, 9, Side.SELL, 50, 5, 1⟩])], []⟩ : PsBook).askLevels,
      ∀ m ∈ pl.2, m.priceCents = pl.1) ∧
    ((engineProcessOrder ⟨[(50, [⟨201, 9, Side.SELL, 50, 5, 1⟩])], []⟩ 0
        ⟨301, 8, Side.BUY, OType.LIMIT, some 50, 9⟩ 100).1.fills.map
      (fun f => f.takerFeeCents)).sum ≤ ceilDiv10k (50 * 9 * 100) :=
  ⟨by decide,
    (fee_rounding_asymmetry_amended
      ⟨[(50, [⟨201, 9, Side.SELL, 50, 5, 1⟩])], []⟩ 0 100 301 8 9 50).1
      (by decide)⟩

end Wager
